import Mathlib

/-!
Verification of the record-reconciliation core of the numbers4 scraping
pipeline (`scripts/scrape_numbers4.py` and `scripts/convert_json.py`).

The Python code is shallowly embedded: pandas DataFrames become `List`s of
structures, CSV cells that may be NA become `Option` fields, and the pandas
operations used by the scripts (stable multi-column `sort_values` via
`np.lexsort`, `drop_duplicates(keep="last")`, row-wise fill loops) become
the corresponding pure list functions.
-/

namespace Numbers4

/-- One row of the canonical CSV (`CSV_COLUMNS` in `scrape_numbers4.py`),
plus nothing else: the derived `round_int` column is recomputed from the
label by `to_round_int`, exactly as the script does before merging.
Field names follow the JSON vocabulary of `convert_json.py`; `label` is the
`回号` display column, `date` the `抽せん日` column, `winning_number` the
`当せん番号` column. Payout cells may be NA, hence `Option`. -/
structure DrawRow where
  label : String
  date : String
  winning_number : String
  digit1 : Int
  digit2 : Int
  digit3 : Int
  digit4 : Int
  straight_payout : Option Int
  box_payout : Option Int
  set_straight_payout : Option Int
  set_box_payout : Option Int
  deriving DecidableEq, Repr

/-- The run of digit characters starting at the head of the list
(the tail of a regex `\d+` match). -/
def leadingDigits : List Char → List Char
  | [] => []
  | c :: rest => if c.isDigit then c :: leadingDigits rest else []

/-- The first maximal run of digit characters in the list, if any:
the behaviour of `re.search(r"(\d+)", s)`. -/
def firstDigitRun : List Char → Option (List Char)
  | [] => none
  | c :: rest => if c.isDigit then some (c :: leadingDigits rest) else firstDigitRun rest

/-- Decimal value of a run of digit characters (`int(...)` on the match). -/
def digitsToNat (cs : List Char) : Nat :=
  cs.foldl (fun acc c => 10 * acc + (c.toNat - 48)) 0

/-- `to_round_int` (scrape_numbers4.py line 293): extract the first digit
run of the label and parse it; `-1` when the label holds no digit. -/
def to_round_int (label : String) : Int :=
  match firstDigitRun label.data with
  | some run => (digitsToNat run : Int)
  | none => -1

/-- The merge key: the script recomputes `round_int` from the `回号` column
with `to_round_int` for both the existing CSV and the new batch
(lines 519 and 540). -/
def roundKey (r : DrawRow) : Int :=
  to_round_int r.label

/-- The sort relation of `combined.sort_values(["round_int", "抽せん日"])`
(line 548): lexicographic on the pair (round, date), i.e. `np.lexsort`.
Python compares the date strings by code points; so does the
lexicographic order on their character lists. -/
def recLE (a b : DrawRow) : Prop :=
  roundKey a < roundKey b ∨
    (roundKey a = roundKey b ∧ a.date.data ≤ b.date.data)

instance : DecidableRel recLE := fun a b => by
  unfold recLE; exact inferInstance

instance : IsTotal DrawRow recLE := by
  constructor
  intro a b
  rcases lt_trichotomy (roundKey a) (roundKey b) with h | h | h
  · exact Or.inl (Or.inl h)
  · rcases le_total a.date.data b.date.data with hd | hd
    · exact Or.inl (Or.inr ⟨h, hd⟩)
    · exact Or.inr (Or.inr ⟨h.symm, hd⟩)
  · exact Or.inr (Or.inl h)

instance : IsTrans DrawRow recLE := by
  constructor
  intro a b c hab hbc
  rcases hab with h1 | ⟨h1, h1d⟩ <;> rcases hbc with h2 | ⟨h2, h2d⟩
  · exact Or.inl (h1.trans h2)
  · exact Or.inl (h2 ▸ h1)
  · exact Or.inl (h1 ▸ h2)
  · exact Or.inr ⟨h1.trans h2, le_trans h1d h2d⟩

/-- Stable sort by `(round_int, 抽せん日)`: pandas' multi-column
`sort_values` is `np.lexsort`, which is stable; `List.insertionSort` is the
stable sort of the same total preorder, hence the same function. -/
def sortRecs (l : List DrawRow) : List DrawRow :=
  List.insertionSort recLE l

/-- `drop_duplicates(subset=["round_int"], keep="last")` (line 549): keep a
row iff no later row has the same round key. -/
def dropDupKeepLast : List DrawRow → List DrawRow
  | [] => []
  | x :: xs =>
      if xs.any (fun y => roundKey y == roundKey x) then dropDupKeepLast xs
      else x :: dropDupKeepLast xs

/-- The append-mode merge (lines 547-549): concatenate existing then
incoming, stable-sort by `(round_int, 抽せん日)`, deduplicate by round
keeping the last occurrence. -/
def merge (existing incoming : List DrawRow) : List DrawRow :=
  dropDupKeepLast (sortRecs (existing ++ incoming))

/-- One entry of the payout lookup built by `collect_payouts_from_months`:
the four payout columns scraped from a monthly page, each possibly NA. -/
structure PayoutData where
  straight_payout : Option Int
  box_payout : Option Int
  set_straight_payout : Option Int
  set_box_payout : Option Int
  deriving DecidableEq, Repr

/-- `missing_mask` (line 370): a row is missing payouts iff all four
payout cells are NA. -/
def allUnset (r : DrawRow) : Bool :=
  r.straight_payout.isNone && r.box_payout.isNone &&
    r.set_straight_payout.isNone && r.set_box_payout.isNone

/-- All four fields of a lookup entry are NA. -/
def pAllNone (p : PayoutData) : Bool :=
  p.straight_payout.isNone && p.box_payout.isNone &&
    p.set_straight_payout.isNone && p.set_box_payout.isNone

/-- The inner fill of lines 397-400: each NA payout cell is set from the
lookup entry when the entry's field is not None; set cells are kept. -/
def fillRow (r : DrawRow) (p : PayoutData) : DrawRow :=
  { r with
    straight_payout :=
      match r.straight_payout with
      | some v => some v
      | none => p.straight_payout
    box_payout :=
      match r.box_payout with
      | some v => some v
      | none => p.box_payout
    set_straight_payout :=
      match r.set_straight_payout with
      | some v => some v
      | none => p.set_straight_payout
    set_box_payout :=
      match r.set_box_payout with
      | some v => some v
      | none => p.set_box_payout }

/-- `missing_rounds` (line 371): the round keys of the rows whose four
payout cells are all NA. -/
def missingRounds (df : List DrawRow) : List Int :=
  (df.filter (fun r => allUnset r)).map roundKey

/-- The `payouts` dictionary built by `collect_payouts_from_months`
restricted to `target_rounds = missing_rounds` (lines 336-343, 389): a
round resolves to an entry only when it is positive and targeted.
`lookup` stands for the monthly-page data, the external collaborator. -/
def collectPayouts (lookup : Int → Option PayoutData) (target : List Int)
    (n : Int) : Option PayoutData :=
  if 0 < n ∧ n ∈ target then lookup n else none

/-- The body of the fill loop (lines 393-400) applied to one row. -/
def fillTransform (lookup : Int → Option PayoutData) (missing : List Int)
    (r : DrawRow) : DrawRow :=
  match collectPayouts lookup missing (roundKey r) with
  | some p => fillRow r p
  | none => r

/-- `fill_missing_payouts` (lines 351-405): compute the rounds whose rows
are missing all payouts, then run the fill loop over every row. The
temporary `__round_int__` column is the recomputed `roundKey`. -/
def fill_missing_payouts (df : List DrawRow)
    (lookup : Int → Option PayoutData) : List DrawRow :=
  df.map (fillTransform lookup (missingRounds df))

/-- Outcome of the range resolution in `__main__`: either the early
`exit(0)` with "既に…取得済みです" (nothing to do), or a fetch range. -/
inductive RangeOutcome where
  | upToDate : RangeOutcome
  | fetch (start_round end_round : Int) : RangeOutcome
  deriving DecidableEq, Repr

/-- The resolved start before the append floor (line 457). -/
def resolveStartRound (argStart : Int) : Int :=
  max 1 argStart

/-- The resolved end (line 458): the explicit end when it is nonzero and
at least the start, else the auto-detected end. -/
def resolveEndRound (argStart argEnd endAuto : Int) : Int :=
  if argEnd ≠ 0 ∧ argEnd ≥ resolveStartRound argStart then argEnd else endAuto

/-- The range resolution of `__main__` (lines 457-471). `existingMax` is
`max_saved`, the maximal round of the existing CSV, present only in append
mode with a readable non-empty CSV; when `max_saved >= end_round` the
script prints "already fetched" and exits, else it raises the start to
`max_saved + 1`. -/
def resolveDrawNumberRange (argStart argEnd endAuto : Int)
    (existingMax : Option Int) : RangeOutcome :=
  let start_round := resolveStartRound argStart
  let end_round := resolveEndRound argStart argEnd endAuto
  match existingMax with
  | none => .fetch start_round end_round
  | some max_saved =>
      if max_saved ≥ end_round then .upToDate
      else .fetch (max start_round (max_saved + 1)) end_round

/-- Number of chunks produced by `range(s, e + 1, 20)` when `s ≤ e`. -/
def chunkCount (s e : Int) : Nat :=
  (e - s).toNat / 20 + 1

/-- `build_detail_urls` (lines 241-249), with each URL abstracted to its
`(st, en)` bounds: clamp `s = max 1 start`, `e = max s end`, then emit one
chunk per `st in range(s, e + 1, 20)` with upper bound `min (st + 19) e`. -/
def build_detail_urls (start_round end_round : Int) : List (Int × Int) :=
  let s := max 1 start_round
  let e := max s end_round
  (List.range (chunkCount s e)).map
    (fun (k : Nat) => (s + 20 * (k : Int), min (s + 20 * (k : Int) + 19) e))

/-- `re.sub(r"\D", "", s)`: keep only the digit characters. -/
def extractDigits (s : String) : String :=
  ⟨s.data.filter Char.isDigit⟩

/-- `int(c)` for a single digit character. -/
def digitVal (c : Char) : Int :=
  (c.toNat : Int) - 48

/-- One `<tr>` of a detail page, reduced to the text of its `<td>` cells
(the external HTML parsing collaborator supplies these). -/
def scrapeDetailRow (tds : List String) : Option DrawRow :=
  match tds with
  | [round_label, date, numbers] =>
      match (extractDigits numbers).data with
      | [a, b, c, d] =>
          some
            { label := round_label
              date := date
              winning_number := ⟨[a, b, c, d]⟩
              digit1 := digitVal a
              digit2 := digitVal b
              digit3 := digitVal c
              digit4 := digitVal d
              straight_payout := none
              box_payout := none
              set_straight_payout := none
              set_box_payout := none }
      | _ => none
  | _ => none

/-- `scrape_detail_page` (lines 252-290) on the rows of the result table:
rows without exactly 3 cells are skipped (headers), rows whose number cell
does not reduce to exactly 4 digits are skipped (line 276), everything
else becomes a record; the payout columns of a detail scrape are NA, as in
the df_new normalisation of lines 543-545. -/
def scrape_detail_page (rows : List (List String)) : List DrawRow :=
  rows.filterMap scrapeDetailRow

/-- A row of the converted frame of `convert_json.py` after `load_csv`:
`draw_no` is the extracted integer, `date` the normalised date string. -/
structure JsonRow where
  draw_no : Int
  date : String
  digit1 : Int
  digit2 : Int
  digit3 : Int
  digit4 : Int
  winning_number : String
  straight_payout : Option Int
  box_payout : Option Int
  set_straight_payout : Option Int
  set_box_payout : Option Int
  deriving DecidableEq, Repr

/-- Descending order on `draw_no`
(`df.sort_values("draw_no", ascending=False)`). -/
def drawDescLE (a b : JsonRow) : Prop :=
  b.draw_no ≤ a.draw_no

instance : DecidableRel drawDescLE := fun a b => by
  unfold drawDescLE; exact inferInstance

instance : IsTotal JsonRow drawDescLE := by
  constructor
  intro a b
  rcases le_total b.draw_no a.draw_no with h | h
  · exact Or.inl h
  · exact Or.inr h

instance : IsTrans JsonRow drawDescLE := by
  constructor
  intro a b c hab hbc
  exact le_trans hbc hab

/-- The whole frame sorted by `draw_no` descending. -/
def sortByDrawNoDesc (df : List JsonRow) : List JsonRow :=
  List.insertionSort drawDescLE df

/-- Left-pad a digit string with zeros to the given width. -/
def padZeros (width : Nat) (s : String) : String :=
  if width ≤ s.length then s
  else ⟨List.replicate (width - s.length) '0'⟩ ++ s

/-- Python's `f"{n:0Nd}"`: zero-pad to the width, sign included. -/
def zeroPad (width : Nat) (n : Int) : String :=
  if n < 0 then "-" ++ padZeros (width - 1) (toString n.natAbs)
  else padZeros width (toString n)

/-- The `latest.json` object built by `generate_latest_json`. -/
structure LatestJson where
  draw_no : Int
  date : String
  digits : List Int
  winning_number : String
  prize_straight : Option Int
  prize_box : Option Int
  prize_set_straight : Option Int
  prize_set_box : Option Int
  deriving DecidableEq, Repr

/-- `generate_latest_json` (convert_json.py lines 62-82): sort descending
by `draw_no` and take `iloc[0]`. On an empty frame `iloc[0]` raises
`IndexError`; `none` models that failure. -/
def generate_latest_json (df : List JsonRow) : Option LatestJson :=
  match sortByDrawNoDesc df with
  | [] => none
  | latest :: _ =>
      some
        { draw_no := latest.draw_no
          date := latest.date
          digits := [latest.digit1, latest.digit2, latest.digit3, latest.digit4]
          winning_number := latest.winning_number
          prize_straight := latest.straight_payout
          prize_box := latest.box_payout
          prize_set_straight := latest.set_straight_payout
          prize_set_box := latest.set_box_payout }

/-- The `version.json` object built by `generate_version_json`; the
wall-clock `last_update` timestamp is external and not modelled. -/
structure VersionJson where
  version : String
  schema : String
  latest_draw_no : Int
  latest_date : String
  total_records : Nat
  deriving DecidableEq, Repr

/-- `generate_version_json` (convert_json.py lines 126-142): sort
descending by `draw_no`, take `iloc[0]` (raising on an empty frame,
modelled as `none`), and build the version descriptor. -/
def generate_version_json (df : List JsonRow) : Option VersionJson :=
  match sortByDrawNoDesc df with
  | [] => none
  | latest :: _ =>
      some
        { version := latest.date ++ "-" ++ zeroPad 3 latest.draw_no
          schema := "1.0.0"
          latest_draw_no := latest.draw_no
          latest_date := latest.date
          total_records := df.length }

/-- The non-payout columns of a row: the merge label, the date, the
winning number and the four digits. -/
def frameFields (r : DrawRow) :
    String × String × String × Int × Int × Int × Int :=
  (r.label, r.date, r.winning_number, r.digit1, r.digit2, r.digit3, r.digit4)

/-- A concrete stored row for draw 7 with one payout column set. -/
def rowA : DrawRow :=
  ⟨"N7", "b", "1234", 1, 2, 3, 4, some 100, none, none, none⟩

/-- A concrete row for draw 7 with an earlier date and no payouts. -/
def rowB : DrawRow :=
  ⟨"N7", "a", "5678", 5, 6, 7, 8, none, none, none, none⟩

/-- A concrete row for draw 7 with the same date as `rowA`, no payouts. -/
def rowC : DrawRow :=
  ⟨"N7", "b", "0000", 0, 0, 0, 0, none, none, none, none⟩

/-- A concrete payout lookup that knows draw 7. -/
def samplePayouts : Int → Option PayoutData := fun n =>
  if n = 7 then some ⟨some 1, some 2, none, none⟩ else none

/-- A concrete converted row for the convert_json witnesses. -/
def sampleJsonRow : JsonRow :=
  ⟨3, "2025-01-06", 1, 2, 3, 4, "1234", none, none, none, none⟩

/-! ### Lemmas about the merge -/

/-- The rows of `l` whose merge key is `n`. -/
def keyFilter (n : Int) (l : List DrawRow) : List DrawRow :=
  l.filter (fun a => roundKey a == n)

theorem mem_keyFilter {n : Int} {l : List DrawRow} {x : DrawRow} :
    x ∈ keyFilter n l ↔ x ∈ l ∧ roundKey x = n := by
  simp [keyFilter, List.mem_filter]

theorem keyFilter_append (n : Int) (u v : List DrawRow) :
    keyFilter n (u ++ v) = keyFilter n u ++ keyFilter n v := by
  simp [keyFilter, List.filter_append]

theorem keyFilter_cons_of_eq {n : Int} {x : DrawRow} (l : List DrawRow)
    (hx : roundKey x = n) : keyFilter n (x :: l) = x :: keyFilter n l := by
  simp [keyFilter, List.filter_cons, hx]

theorem keyFilter_cons_of_ne {n : Int} {x : DrawRow} (l : List DrawRow)
    (hx : roundKey x ≠ n) : keyFilter n (x :: l) = keyFilter n l := by
  simp [keyFilter, List.filter_cons, hx]

theorem keyFilter_orderedInsert_of_ne {n : Int} {x : DrawRow}
    (hx : roundKey x ≠ n) :
    ∀ s : List DrawRow,
      keyFilter n (List.orderedInsert recLE x s) = keyFilter n s
  | [] => by simp [keyFilter_cons_of_ne _ hx]
  | y :: ys => by
    by_cases h : recLE x y
    · simp only [List.orderedInsert, if_pos h]
      rw [keyFilter_cons_of_ne _ hx]
    · simp only [List.orderedInsert, if_neg h]
      by_cases hy : roundKey y = n
      · rw [keyFilter_cons_of_eq _ hy, keyFilter_cons_of_eq _ hy,
          keyFilter_orderedInsert_of_ne hx ys]
      · rw [keyFilter_cons_of_ne _ hy, keyFilter_cons_of_ne _ hy,
          keyFilter_orderedInsert_of_ne hx ys]

theorem keyFilter_orderedInsert_of_eq {n : Int} {x : DrawRow}
    (hx : roundKey x = n) :
    ∀ s : List DrawRow, (∀ a ∈ s, roundKey a = n → a.date = x.date) →
      keyFilter n (List.orderedInsert recLE x s) = x :: keyFilter n s
  | [], _ => by simp [keyFilter_cons_of_eq _ hx]
  | y :: ys, hd => by
    by_cases h : recLE x y
    · simp only [List.orderedInsert, if_pos h]
      rw [keyFilter_cons_of_eq _ hx]
    · have hy : roundKey y ≠ n := by
        intro hyn
        apply h
        right
        refine ⟨hx.trans hyn.symm, ?_⟩
        rw [hd y (List.mem_cons_self y ys) hyn]
      simp only [List.orderedInsert, if_neg h]
      rw [keyFilter_cons_of_ne _ hy, keyFilter_cons_of_ne _ hy,
        keyFilter_orderedInsert_of_eq hx ys
          (fun a ha hn => hd a (List.mem_cons_of_mem y ha) hn)]

theorem keyFilter_sortRecs {n : Int} :
    ∀ l : List DrawRow,
      (∀ a ∈ l, ∀ b ∈ l, roundKey a = n → roundKey b = n → a.date = b.date) →
      keyFilter n (sortRecs l) = keyFilter n l
  | [], _ => rfl
  | x :: xs, hd => by
    have hrest : ∀ a ∈ xs, ∀ b ∈ xs,
        roundKey a = n → roundKey b = n → a.date = b.date :=
      fun a ha b hb => hd a (List.mem_cons_of_mem x ha) b (List.mem_cons_of_mem x hb)
    show keyFilter n (List.orderedInsert recLE x (sortRecs xs)) = _
    by_cases hx : roundKey x = n
    · rw [keyFilter_orderedInsert_of_eq hx (sortRecs xs)
        (fun a ha han => hd a
          (List.mem_cons_of_mem x ((List.perm_insertionSort recLE xs).mem_iff.mp ha))
          x (List.mem_cons_self x xs) han hx),
        keyFilter_sortRecs xs hrest, keyFilter_cons_of_eq _ hx]
    · rw [keyFilter_orderedInsert_of_ne hx (sortRecs xs),
        keyFilter_sortRecs xs hrest, keyFilter_cons_of_ne _ hx]

theorem dropDupKeepLast_subset {x : DrawRow} :
    ∀ {l : List DrawRow}, x ∈ dropDupKeepLast l → x ∈ l := by
  intro l
  induction l with
  | nil => intro h; exact absurd h (List.not_mem_nil x)
  | cons y ys ih =>
    intro h
    rw [dropDupKeepLast] at h
    split at h
    · exact List.mem_cons_of_mem y (ih h)
    · rcases List.mem_cons.mp h with h | h
      · exact h ▸ List.mem_cons_self y ys
      · exact List.mem_cons_of_mem y (ih h)

theorem dropDupKeepLast_ne_nil :
    ∀ {l : List DrawRow}, l ≠ [] → dropDupKeepLast l ≠ [] := by
  intro l
  induction l with
  | nil => intro h; exact absurd rfl h
  | cons y ys ih =>
    intro _
    rw [dropDupKeepLast]
    split
    · next hany =>
        rcases List.any_eq_true.mp hany with ⟨z, hz, _⟩
        exact ih (List.ne_nil_of_mem hz)
    · exact List.cons_ne_nil y _

theorem keyFilter_dropDupKeepLast (n : Int) :
    ∀ l : List DrawRow,
      keyFilter n (dropDupKeepLast l) = dropDupKeepLast (keyFilter n l)
  | [] => rfl
  | x :: xs => by
    rw [dropDupKeepLast]
    by_cases hany : (xs.any fun y => roundKey y == roundKey x) = true
    · rw [if_pos hany, keyFilter_dropDupKeepLast n xs]
      by_cases hx : roundKey x = n
      · rcases List.any_eq_true.mp hany with ⟨z, hz, hzx⟩
        have hzr : roundKey z = roundKey x := by simpa using hzx
        have hz' : z ∈ keyFilter n xs := mem_keyFilter.mpr ⟨hz, hzr.trans hx⟩
        rw [keyFilter_cons_of_eq xs hx, dropDupKeepLast,
          if_pos (List.any_eq_true.mpr ⟨z, hz', by simp [hzr]⟩)]
      · rw [keyFilter_cons_of_ne xs hx]
    · rw [if_neg hany]
      have hnone : ∀ y ∈ xs, roundKey y ≠ roundKey x := by
        intro y hy
        have := List.any_eq_false.mp (Bool.of_not_eq_true hany) y hy
        simpa using this
      by_cases hx : roundKey x = n
      · have hfnone : ¬ ((keyFilter n xs).any fun y => roundKey y == roundKey x) = true := by
          intro hc
          rcases List.any_eq_true.mp hc with ⟨z, hz, hzx⟩
          exact hnone z (mem_keyFilter.mp hz).1 (by simpa using hzx)
        rw [keyFilter_cons_of_eq (dropDupKeepLast xs) hx,
          keyFilter_cons_of_eq xs hx, dropDupKeepLast, if_neg hfnone,
          keyFilter_dropDupKeepLast n xs]
      · rw [keyFilter_cons_of_ne (dropDupKeepLast xs) hx,
          keyFilter_cons_of_ne xs hx, keyFilter_dropDupKeepLast n xs]

theorem dropDupKeepLast_append_mem {n : Int} {v : List DrawRow}
    (hv : ∃ b ∈ v, roundKey b = n) :
    ∀ u : List DrawRow, (∀ a ∈ u, roundKey a = n) →
      ∀ x ∈ dropDupKeepLast (u ++ v), x ∈ v
  | [], _ => fun x hx => dropDupKeepLast_subset hx
  | y :: us, hu => by
    intro x hx
    rcases hv with ⟨b, hb, hbn⟩
    rw [List.cons_append, dropDupKeepLast,
      if_pos (List.any_eq_true.mpr ⟨b, List.mem_append_right us hb,
        by simp [hbn, hu y (List.mem_cons_self y us)]⟩)] at hx
    exact dropDupKeepLast_append_mem ⟨b, hb, hbn⟩ us
      (fun a ha => hu a (List.mem_cons_of_mem y ha)) x hx

theorem dropDupKeepLast_length_all_same {n : Int} :
    ∀ {l : List DrawRow}, (∀ a ∈ l, roundKey a = n) →
      (dropDupKeepLast l).length = if l.isEmpty then 0 else 1 := by
  intro l
  induction l with
  | nil => intro _; rfl
  | cons x xs ih =>
    intro hall
    rw [dropDupKeepLast]
    by_cases hany : (xs.any fun y => roundKey y == roundKey x) = true
    · rcases List.any_eq_true.mp hany with ⟨z, hz, _⟩
      have hne : ¬ xs.isEmpty = true := by
        simp only [List.isEmpty_iff]
        exact List.ne_nil_of_mem hz
      rw [if_pos hany, ih (fun a ha => hall a (List.mem_cons_of_mem x ha)),
        if_neg hne, List.isEmpty_cons]
      rfl
    · rw [if_neg hany]
      have hxs : xs = [] := by
        rcases xs with _ | ⟨z, zs⟩
        · rfl
        · exfalso
          apply hany
          refine List.any_eq_true.mpr ⟨z, List.mem_cons_self z zs, ?_⟩
          simp [hall z (List.mem_cons_of_mem x (List.mem_cons_self z zs)),
            hall x (List.mem_cons_self x _)]
      subst hxs
      rfl

theorem dropDupKeepLast_of_nodup :
    ∀ {l : List DrawRow}, (l.map roundKey).Nodup → dropDupKeepLast l = l := by
  intro l
  induction l with
  | nil => intro _; rfl
  | cons x xs ih =>
    intro h
    rw [List.map_cons, List.nodup_cons] at h
    rw [dropDupKeepLast, if_neg ?_, ih h.2]
    intro hc
    rcases List.any_eq_true.mp hc with ⟨z, hz, hzx⟩
    exact h.1 (List.mem_map.mpr ⟨z, hz, by simpa using hzx⟩)

theorem dropDupKeepLast_pairwise :
    ∀ {l : List DrawRow},
      l.Pairwise (fun a b => roundKey a ≤ roundKey b) →
      (dropDupKeepLast l).Pairwise (fun a b => roundKey a < roundKey b) := by
  intro l
  induction l with
  | nil => intro _; exact List.Pairwise.nil
  | cons x xs ih =>
    intro h
    rw [List.pairwise_cons] at h
    rw [dropDupKeepLast]
    split
    · exact ih h.2
    · next hany =>
        refine List.Pairwise.cons ?_ (ih h.2)
        intro y hy
        have hyxs : y ∈ xs := dropDupKeepLast_subset hy
        refine lt_of_le_of_ne (h.1 y hyxs) ?_
        intro he
        exact absurd (List.any_eq_true.mpr ⟨y, hyxs, by simp [he.symm]⟩) hany

theorem sortRecs_pairwise_round (l : List DrawRow) :
    (sortRecs l).Pairwise (fun a b => roundKey a ≤ roundKey b) := by
  refine (List.sorted_insertionSort recLE l).imp ?_
  intro a b hab
  rcases hab with h | ⟨h, _⟩
  · exact le_of_lt h
  · exact le_of_eq h

/-! ### Lemmas about the payout fill -/

theorem label_fillRow (r : DrawRow) (p : PayoutData) :
    (fillRow r p).label = r.label := rfl

theorem roundKey_fillRow (r : DrawRow) (p : PayoutData) :
    roundKey (fillRow r p) = roundKey r := rfl

theorem roundKey_fillTransform (lookup : Int → Option PayoutData)
    (missing : List Int) (r : DrawRow) :
    roundKey (fillTransform lookup missing r) = roundKey r := by
  unfold fillTransform
  cases collectPayouts lookup missing (roundKey r) with
  | none => rfl
  | some p => exact roundKey_fillRow r p

theorem allUnset_fillRow {r : DrawRow} {p : PayoutData}
    (h : allUnset (fillRow r p) = true) :
    allUnset r = true ∧ pAllNone p = true := by
  cases r with
  | mk label date wn d1 d2 d3 d4 sp bp ssp sbp =>
    cases p with
    | mk qs qb qss qsb =>
      cases sp <;> cases bp <;> cases ssp <;> cases sbp <;>
        simp_all [allUnset, fillRow, pAllNone]

theorem fillRow_of_pAllNone {r : DrawRow} {p : PayoutData}
    (h : pAllNone p = true) : fillRow r p = r := by
  cases r with
  | mk label date wn d1 d2 d3 d4 sp bp ssp sbp =>
    cases p with
    | mk qs qb qss qsb =>
      simp only [pAllNone, Bool.and_eq_true, Option.isNone_iff_eq_none] at h
      obtain ⟨⟨⟨h1, h2⟩, h3⟩, h4⟩ := h
      subst h1; subst h2; subst h3; subst h4
      cases sp <;> cases bp <;> cases ssp <;> cases sbp <;> rfl

theorem allUnset_fillTransform {lookup : Int → Option PayoutData}
    {missing : List Int} {r : DrawRow}
    (h : allUnset (fillTransform lookup missing r) = true) :
    allUnset r = true := by
  unfold fillTransform at h
  cases hc : collectPayouts lookup missing (roundKey r) with
  | none => rw [hc] at h; exact h
  | some p => rw [hc] at h; exact (allUnset_fillRow h).1

theorem mem_missingRounds {n : Int} {df : List DrawRow} :
    n ∈ missingRounds df ↔ ∃ r ∈ df, allUnset r = true ∧ roundKey r = n := by
  simp [missingRounds, List.mem_map, List.mem_filter]
  constructor
  · rintro ⟨r, ⟨hr, hu⟩, hn⟩
    exact ⟨r, hr, hu, hn⟩
  · rintro ⟨r, hr, hu, hn⟩
    exact ⟨r, ⟨hr, hu⟩, hn⟩

theorem frameFields_fillTransform (lookup : Int → Option PayoutData)
    (missing : List Int) (r : DrawRow) :
    (fillTransform lookup missing r).label = r.label ∧
    (fillTransform lookup missing r).date = r.date ∧
    (fillTransform lookup missing r).winning_number = r.winning_number ∧
    (fillTransform lookup missing r).digit1 = r.digit1 ∧
    (fillTransform lookup missing r).digit2 = r.digit2 ∧
    (fillTransform lookup missing r).digit3 = r.digit3 ∧
    (fillTransform lookup missing r).digit4 = r.digit4 := by
  unfold fillTransform
  cases collectPayouts lookup missing (roundKey r) with
  | none => exact ⟨rfl, rfl, rfl, rfl, rfl, rfl, rfl⟩
  | some p => exact ⟨rfl, rfl, rfl, rfl, rfl, rfl, rfl⟩

/-! ### Claim theorems -/

/-- Counterexample to claim C1: the stored row `rowA` and the incoming row
`rowB` both carry draw 7 with differing payloads — in particular the
incoming date sorts before the stored one — yet the merge keeps the stored
version and drops the incoming one, because the `(round, date)` sort puts
the incoming row first and deduplication keeps the last occurrence. -/
theorem merge_last_write_cex :
    roundKey rowA = roundKey rowB ∧ rowA ≠ rowB ∧
    merge [rowA] [rowB] = [rowA] ∧ rowB ∉ merge [rowA] [rowB] := by
  decide

/-- Claim C1 (amended): provided every record of either input that carries
the shared `draw_no` has the same `draw_date` — the situation the spec
expects, the date being a tie-break only — the merged output contains a
record of that `draw_no` and every such record comes from `incoming`,
never from `existing` (unless the very same record value also occurs in
`incoming`). -/
theorem merge_incoming_wins (existing incoming : List DrawRow) (n : Int)
    (hdate : ∀ a ∈ existing ++ incoming, ∀ b ∈ existing ++ incoming,
      roundKey a = n → roundKey b = n → a.date = b.date)
    (hinc : ∃ i ∈ incoming, roundKey i = n) :
    (∃ x ∈ merge existing incoming, roundKey x = n) ∧
    ∀ x ∈ merge existing incoming, roundKey x = n → x ∈ incoming := by
  obtain ⟨i, hi, hin⟩ := hinc
  have hkey : keyFilter n (merge existing incoming) =
      dropDupKeepLast (keyFilter n existing ++ keyFilter n incoming) := by
    unfold merge
    rw [keyFilter_dropDupKeepLast, keyFilter_sortRecs _ hdate, keyFilter_append]
  constructor
  · have hne : keyFilter n existing ++ keyFilter n incoming ≠ [] :=
      List.ne_nil_of_mem (List.mem_append_right _ (mem_keyFilter.mpr ⟨hi, hin⟩))
    have h2 : keyFilter n (merge existing incoming) ≠ [] := by
      rw [hkey]
      exact dropDupKeepLast_ne_nil hne
    rcases hx : keyFilter n (merge existing incoming) with _ | ⟨x, rest⟩
    · exact absurd hx h2
    · have hxm : x ∈ keyFilter n (merge existing incoming) := by
        rw [hx]
        exact List.mem_cons_self _ _
      obtain ⟨hm, hn⟩ := mem_keyFilter.mp hxm
      exact ⟨x, hm, hn⟩
  · intro x hx hxn
    have hxf : x ∈ keyFilter n (merge existing incoming) :=
      mem_keyFilter.mpr ⟨hx, hxn⟩
    rw [hkey] at hxf
    have hxi := dropDupKeepLast_append_mem
      ⟨i, mem_keyFilter.mpr ⟨hi, hin⟩, hin⟩
      (keyFilter n existing) (fun a ha => (mem_keyFilter.mp ha).2) x hxf
    exact (mem_keyFilter.mp hxi).1

/-- Witness for the amended C1 theorem: stored `rowA` and incoming `rowC`
share draw 7 with equal dates; the merge output's draw-7 record comes from
the incoming batch. -/
theorem merge_incoming_wins_witness :
    (∀ a ∈ [rowA] ++ [rowC], ∀ b ∈ [rowA] ++ [rowC],
      roundKey a = 7 → roundKey b = 7 → a.date = b.date) ∧
    (∃ i ∈ [rowC], roundKey i = 7) ∧
    ((∃ x ∈ merge [rowA] [rowC], roundKey x = 7) ∧
      ∀ x ∈ merge [rowA] [rowC], roundKey x = 7 → x ∈ [rowC]) :=
  ⟨by decide, by decide, merge_incoming_wins [rowA] [rowC] 7 (by decide) (by decide)⟩

/-- Claim C5: with `--start 1`, `--end 0` (falsy, hence auto-detect),
auto-detected end 6546 and an existing CSV reaching draw 6540, append-mode
range resolution fetches draws 6541 through 6546. -/
theorem resolve_incremental_example :
    resolveDrawNumberRange 1 0 6546 (some 6540) = .fetch 6541 6546 := by
  decide

/-- Claim C4: whenever the incremental floor `existingMax + 1` exceeds the
resolved end of the fetch range, append-mode range resolution signals the
"nothing to do" outcome instead of emitting a range whose start would
exceed its end. -/
theorem resolve_up_to_date (argStart argEnd endAuto m : Int)
    (h : resolveEndRound argStart argEnd endAuto < m + 1) :
    resolveDrawNumberRange argStart argEnd endAuto (some m) = .upToDate := by
  have hge : m ≥ resolveEndRound argStart argEnd endAuto := by omega
  simp [resolveDrawNumberRange, hge]

/-- Witness for the C4 theorem at a concrete input: the existing CSV ends
at 6550 while the resolved end is 6546, so the run is a no-op. -/
theorem resolve_up_to_date_witness :
    resolveEndRound 1 0 6546 < 6550 + 1 ∧
    resolveDrawNumberRange 1 0 6546 (some 6550) = .upToDate :=
  ⟨by decide, resolve_up_to_date 1 0 6546 6550 (by decide)⟩

/-- Counterexample to claim C2: the two inputs share no `draw_no`
(the incoming batch is empty), yet the merge output has 1 record, not
2 + 0, because the existing input itself repeats draw 7 and deduplication
collapses the repetition. -/
theorem merge_card_cex :
    (∀ n ∈ [rowA, rowC].map roundKey, n ∉ ([] : List DrawRow).map roundKey) ∧
    (merge [rowA, rowC] []).length ≠
      [rowA, rowC].length + ([] : List DrawRow).length := by
  decide

/-- Claim C2 (amended): for any inputs in any order the merge output is
strictly sorted by `draw_no` and carries exactly one record per distinct
`draw_no` present in either input; the cardinality of the output equals
the sum of the input cardinalities when the inputs are disjoint and,
additionally, each input is internally duplicate-free. -/
theorem merge_one_per_round (existing incoming : List DrawRow) :
    (merge existing incoming).Pairwise (fun a b => roundKey a < roundKey b) ∧
    (∀ n : Int, (merge existing incoming).countP (fun x => roundKey x == n) =
      if n ∈ (existing ++ incoming).map roundKey then 1 else 0) ∧
    ((existing.map roundKey).Nodup → (incoming.map roundKey).Nodup →
      (∀ n ∈ existing.map roundKey, n ∉ incoming.map roundKey) →
      (merge existing incoming).length = existing.length + incoming.length) := by
  refine ⟨?_, ?_, ?_⟩
  · exact dropDupKeepLast_pairwise (sortRecs_pairwise_round _)
  · intro n
    rw [List.countP_eq_length_filter]
    show (keyFilter n (merge existing incoming)).length = _
    unfold merge
    rw [keyFilter_dropDupKeepLast,
      dropDupKeepLast_length_all_same (fun a ha => (mem_keyFilter.mp ha).2)]
    have hiff : keyFilter n (sortRecs (existing ++ incoming)) = [] ↔
        n ∉ (existing ++ incoming).map roundKey := by
      rw [List.eq_nil_iff_forall_not_mem]
      constructor
      · intro h hn
        rcases List.mem_map.mp hn with ⟨x, hx, hxn⟩
        exact h x (mem_keyFilter.mpr
          ⟨(List.perm_insertionSort recLE _).mem_iff.mpr hx, hxn⟩)
      · intro h x hxf
        obtain ⟨hx, hxn⟩ := mem_keyFilter.mp hxf
        exact h (List.mem_map.mpr
          ⟨x, (List.perm_insertionSort recLE _).mem_iff.mp hx, hxn⟩)
    by_cases hmem : n ∈ (existing ++ incoming).map roundKey
    · have hne : ¬ (keyFilter n (sortRecs (existing ++ incoming))).isEmpty = true := by
        rw [List.isEmpty_iff, hiff]
        exact not_not_intro hmem
      rw [if_neg hne, if_pos hmem]
    · have hemp : (keyFilter n (sortRecs (existing ++ incoming))).isEmpty = true := by
        rw [List.isEmpty_iff, hiff]
        exact hmem
      rw [if_pos hemp, if_neg hmem]
  · intro hex hinc hdisj
    have hnodup : ((existing ++ incoming).map roundKey).Nodup := by
      rw [List.map_append]
      exact hex.append hinc (fun n hn1 hn2 => hdisj n hn1 hn2)
    have hsortnodup : ((sortRecs (existing ++ incoming)).map roundKey).Nodup :=
      (((List.perm_insertionSort recLE _).map roundKey).nodup_iff).mpr hnodup
    unfold merge
    rw [dropDupKeepLast_of_nodup hsortnodup]
    unfold sortRecs
    rw [(List.perm_insertionSort recLE _).length_eq, List.length_append]

/-- Witness for the amended C2 theorem: two disjoint duplicate-free
singleton inputs merge to a strictly sorted two-record output. -/
theorem merge_one_per_round_witness :
    ([rowA].map roundKey).Nodup ∧ ([⟨"N9", "c", "1111", 1, 1, 1, 1,
      none, none, none, none⟩].map roundKey).Nodup ∧
    (∀ n ∈ [rowA].map roundKey, n ∉ [(⟨"N9", "c", "1111", 1, 1, 1, 1,
      none, none, none, none⟩ : DrawRow)].map roundKey) ∧
    (merge [rowA] [⟨"N9", "c", "1111", 1, 1, 1, 1,
      none, none, none, none⟩]).Pairwise (fun a b => roundKey a < roundKey b) ∧
    (merge [rowA] [⟨"N9", "c", "1111", 1, 1, 1, 1,
      none, none, none, none⟩]).length = [rowA].length + 1 :=
  ⟨by decide, by decide, by decide,
    (merge_one_per_round [rowA] [⟨"N9", "c", "1111", 1, 1, 1, 1,
      none, none, none, none⟩]).1,
    (merge_one_per_round [rowA] [⟨"N9", "c", "1111", 1, 1, 1, 1,
      none, none, none, none⟩]).2.2 (by decide) (by decide) (by decide)⟩

/-- Counterexample to claim C3: `rowA` already has a payout field set, and
the lookup knows its draw 7, yet `fill_missing_payouts` mutates it —
because a second row (`rowC`) with the same draw 7 is missing all payouts,
draw 7 lands in `missing_rounds` and the fill loop revisits every row of
that round, `rowA` included. -/
theorem fill_overwrites_partial_cex :
    allUnset rowA = false ∧ samplePayouts (roundKey rowA) ≠ none ∧
    (fill_missing_payouts [rowC, rowA] samplePayouts)[1]? ≠ some rowA := by
  decide

/-- Claim C3 (amended): when no two rows of the dataset share a
`draw_no` — the invariant of the canonical dataset — a record with at
least one payout field set is returned unchanged by `fill_missing_payouts`
even if the lookup has data for its draw; only all-unset records are
treated as missing. -/
theorem fill_preserves_enriched (df : List DrawRow)
    (lookup : Int → Option PayoutData) (hnd : (df.map roundKey).Nodup) :
    ∀ i (hi : i < (fill_missing_payouts df lookup).length) (hj : i < df.length),
      allUnset (df.get ⟨i, hj⟩) = false →
      (fill_missing_payouts df lookup).get ⟨i, hi⟩ = df.get ⟨i, hj⟩ := by
  have key : ∀ r ∈ df, allUnset r = false →
      fillTransform lookup (missingRounds df) r = r := by
    intro r hr hru
    by_cases hc : 0 < roundKey r ∧ roundKey r ∈ missingRounds df
    · exfalso
      obtain ⟨hpos, hmem⟩ := hc
      obtain ⟨y, hy, hyu, hyn⟩ := mem_missingRounds.mp hmem
      have hyr : y = r := List.inj_on_of_nodup_map hnd hy hr hyn
      rw [hyr, hru] at hyu
      exact Bool.false_ne_true hyu
    · simp [fillTransform, collectPayouts, hc]
  intro i hi hj hset
  have hmem : df.get ⟨i, hj⟩ ∈ df := df.get_mem _ _
  calc (fill_missing_payouts df lookup).get ⟨i, hi⟩
      = fillTransform lookup (missingRounds df) (df.get ⟨i, hj⟩) := by
        simp [fill_missing_payouts, List.get_eq_getElem, List.getElem_map]
    _ = df.get ⟨i, hj⟩ := key _ hmem hset

/-- Witness for the amended C3 theorem: in a duplicate-free dataset the
already-enriched `rowA` is untouched even though the lookup knows its
draw. -/
theorem fill_preserves_enriched_witness :
    ([rowA].map roundKey).Nodup ∧
    0 < [rowA].length ∧ 0 < (fill_missing_payouts [rowA] samplePayouts).length ∧
    allUnset ([rowA].get ⟨0, by decide⟩) = false ∧
    (fill_missing_payouts [rowA] samplePayouts).get ⟨0, by decide⟩ =
      [rowA].get ⟨0, by decide⟩ :=
  ⟨by decide, by decide, by decide, by decide,
    fill_preserves_enriched [rowA] samplePayouts (by decide) 0
      (by decide) (by decide) (by decide)⟩

/-- Claim C6: applying `fill_missing_payouts` twice with the same lookup
is idempotent — the second pass fills nothing and returns the first pass's
output unchanged. -/
theorem fill_idempotent (df : List DrawRow)
    (lookup : Int → Option PayoutData) :
    fill_missing_payouts (fill_missing_payouts df lookup) lookup =
      fill_missing_payouts df lookup := by
  have key : ∀ x ∈ fill_missing_payouts df lookup,
      fillTransform lookup (missingRounds (fill_missing_payouts df lookup)) x = x := by
    intro x hx
    by_cases hc : 0 < roundKey x ∧
        roundKey x ∈ missingRounds (fill_missing_payouts df lookup)
    · obtain ⟨hpos, hmem⟩ := hc
      obtain ⟨y, hy, hyu, hyn⟩ := mem_missingRounds.mp hmem
      obtain ⟨q, hq, hqy⟩ := List.mem_map.mp hy
      have hqu : allUnset q = true := by
        rw [← hqy] at hyu
        exact allUnset_fillTransform hyu
      have hqn : roundKey q = roundKey x := by
        rw [← hyn, ← hqy, roundKey_fillTransform]
      have hqmiss : roundKey x ∈ missingRounds df :=
        mem_missingRounds.mpr ⟨q, hq, hqu, hqn⟩
      have hfq : fillTransform lookup (missingRounds df) q =
          match lookup (roundKey x) with
          | some p => fillRow q p
          | none => q := by
        unfold fillTransform collectPayouts
        rw [hqn, if_pos ⟨hpos, hqmiss⟩]
      cases hl : lookup (roundKey x) with
      | none =>
          unfold fillTransform collectPayouts
          rw [if_pos ⟨hpos, hmem⟩, hl]
      | some p =>
          have hpn : pAllNone p = true := by
            have hall : allUnset (fillRow q p) = true := by
              rw [← hqy, hfq, hl] at hyu
              exact hyu
            exact (allUnset_fillRow hall).2
          unfold fillTransform collectPayouts
          rw [if_pos ⟨hpos, hmem⟩, hl]
          exact fillRow_of_pAllNone hpn
    · simp [fillTransform, collectPayouts, hc]
  show (fill_missing_payouts df lookup).map
      (fillTransform lookup (missingRounds (fill_missing_payouts df lookup))) =
    fill_missing_payouts df lookup
  calc (fill_missing_payouts df lookup).map
        (fillTransform lookup (missingRounds (fill_missing_payouts df lookup)))
      = (fill_missing_payouts df lookup).map id :=
        List.map_congr_left (fun a ha => key a ha)
    _ = fill_missing_payouts df lookup := List.map_id _

/-- Claim C7: `fill_missing_payouts` preserves the cardinality and the
ordering of its input, and only the four payout columns of a row can
change: the label, date, winning number and digits are untouched. -/
theorem fill_frame (df : List DrawRow) (lookup : Int → Option PayoutData) :
    (fill_missing_payouts df lookup).length = df.length ∧
    (fill_missing_payouts df lookup).map frameFields = df.map frameFields := by
  constructor
  · exact List.length_map _ _
  · unfold fill_missing_payouts
    rw [List.map_map]
    refine List.map_congr_left ?_
    intro r hr
    obtain ⟨h1, h2, h3, h4, h5, h6, h7⟩ :=
      frameFields_fillTransform lookup (missingRounds df) r
    simp [frameFields, Function.comp, h1, h2, h3, h4, h5, h6, h7]

/-- Counterexample to claim C8: a detail row whose label "???" yields no
derivable draw number is NOT excluded from the merge — the scrape keeps it
with the sentinel round `-1` and the merge carries it through. -/
theorem scrape_sentinel_cex :
    (scrape_detail_page [["???", "2025/01/01", "1234"]]).length = 1 ∧
    (∀ r ∈ scrape_detail_page [["???", "2025/01/01", "1234"]],
      roundKey r = -1) ∧
    merge [] (scrape_detail_page [["???", "2025/01/01", "1234"]]) =
      scrape_detail_page [["???", "2025/01/01", "1234"]] := by
  decide

/-- Claim C8 (amended): the scraper never raises on a malformed row — a
row whose number cell does not reduce to exactly 4 digits is silently
excluded, while a row whose label yields no draw number is retained (its
winning number intact) and `to_round_int` resolves the label to the
sentinel `-1` instead of failing. -/
theorem scrape_malformed_policy (round_label date numbers : String) :
    ((extractDigits numbers).data.length ≠ 4 →
      scrapeDetailRow [round_label, date, numbers] = none) ∧
    ((extractDigits numbers).data.length = 4 →
      ∃ rec, scrapeDetailRow [round_label, date, numbers] = some rec ∧
        rec.label = round_label ∧ rec.date = date ∧
        rec.winning_number = extractDigits numbers) ∧
    (firstDigitRun round_label.data = none → to_round_int round_label = -1) := by
  have hred : scrapeDetailRow [round_label, date, numbers] =
      match (extractDigits numbers).data with
      | [a, b, c, d] =>
          some { label := round_label, date := date,
                 winning_number := ⟨[a, b, c, d]⟩,
                 digit1 := digitVal a, digit2 := digitVal b,
                 digit3 := digitVal c, digit4 := digitVal d,
                 straight_payout := none, box_payout := none,
                 set_straight_payout := none, set_box_payout := none }
      | _ => none := rfl
  refine ⟨?_, ?_, ?_⟩
  · intro h
    rw [hred]
    rcases hl : (extractDigits numbers).data with
        _ | ⟨a, _ | ⟨b, _ | ⟨c, _ | ⟨d, _ | ⟨e, rest⟩⟩⟩⟩⟩ <;>
      first
      | rfl
      | (exact absurd (by simp [hl]) h)
  · intro h
    obtain ⟨a, b, c, d, heq⟩ :
        ∃ a b c d, (extractDigits numbers).data = [a, b, c, d] := by
      rcases hl : (extractDigits numbers).data with
          _ | ⟨a, _ | ⟨b, _ | ⟨c, _ | ⟨d, _ | ⟨e, rest⟩⟩⟩⟩⟩ <;>
        first
        | exact ⟨a, b, c, d, rfl⟩
        | (exfalso; rw [hl] at h; simp at h)
    rw [hred, heq]
    refine ⟨_, rfl, rfl, rfl, ?_⟩
    show (⟨[a, b, c, d]⟩ : String) = extractDigits numbers
    rw [← heq]
  · intro h
    simp [to_round_int, h]

/-- Witness for the amended C8 theorem: the 3-digit row is dropped, and
the digit-free label resolves to the sentinel. -/
theorem scrape_malformed_policy_witness :
    ((extractDigits "123").data.length ≠ 4 ∧
      scrapeDetailRow ["x", "d", "123"] = none) ∧
    (firstDigitRun "???".data = none ∧ to_round_int "???" = -1) :=
  ⟨⟨by decide, (scrape_malformed_policy "x" "d" "123").1 (by decide)⟩,
    ⟨by decide, (scrape_malformed_policy "???" "d" "123").2.2 (by decide)⟩⟩

/-- Claim C9: for a valid resolved range `start ≤ end` (with `start ≥ 1`),
`build_detail_urls` partitions it into chunks whose lower bounds are
`start, start + 20, start + 40, …`, whose upper bound is 19 past the lower
bound capped at `end`; the chunks together cover exactly the draws from
`start` to `end` and are pairwise disjoint (each chunk ends strictly
before the next begins). -/
theorem build_detail_urls_partition (start_round end_round : Int)
    (h1 : 1 ≤ start_round) (h2 : start_round ≤ end_round) :
    (∀ i (hi : i < (build_detail_urls start_round end_round).length),
      (build_detail_urls start_round end_round).get ⟨i, hi⟩ =
        (start_round + 20 * (i : Int),
          min (start_round + 20 * (i : Int) + 19) end_round)) ∧
    (∀ n : Int,
      (∃ c ∈ build_detail_urls start_round end_round, c.1 ≤ n ∧ n ≤ c.2) ↔
        (start_round ≤ n ∧ n ≤ end_round)) ∧
    (∀ i j (hi : i < (build_detail_urls start_round end_round).length)
      (hj : j < (build_detail_urls start_round end_round).length), i < j →
      ((build_detail_urls start_round end_round).get ⟨i, hi⟩).2 <
        ((build_detail_urls start_round end_round).get ⟨j, hj⟩).1) := by
  have hs : max 1 start_round = start_round := max_eq_right h1
  have he : max start_round end_round = end_round := max_eq_right h2
  have hb : build_detail_urls start_round end_round =
      (List.range (chunkCount start_round end_round)).map
        (fun (k : Nat) => (start_round + 20 * (k : Int),
          min (start_round + 20 * (k : Int) + 19) end_round)) := by
    simp only [build_detail_urls, hs, he]
  have hget : ∀ i (hi : i < (build_detail_urls start_round end_round).length),
      (build_detail_urls start_round end_round).get ⟨i, hi⟩ =
        (start_round + 20 * (i : Int),
          min (start_round + 20 * (i : Int) + 19) end_round) := by
    intro i hi
    have hi' : i < chunkCount start_round end_round := by
      have := hi
      rw [hb, List.length_map, List.length_range] at this
      exact this
    simp only [hb, List.get_eq_getElem, List.getElem_map, List.getElem_range]
  refine ⟨hget, ?_, ?_⟩
  · intro n
    constructor
    · rintro ⟨c, hc, hcl, hcr⟩
      rw [hb] at hc
      obtain ⟨k, hk, hck⟩ := List.mem_map.mp hc
      have hk0 : (0 : Int) ≤ (k : Int) := Int.natCast_nonneg k
      have hmin : min (start_round + 20 * (k : Int) + 19) end_round ≤ end_round :=
        min_le_right _ _
      rw [← hck] at hcl hcr
      constructor
      · omega
      · omega
    · rintro ⟨hl, hr⟩
      have hnn : (0 : Int) ≤ n - start_round := by omega
      set t : Nat := (n - start_round).toNat with ht
      set k : Nat := t / 20 with hk
      have htn : (t : Int) = n - start_round := Int.toNat_of_nonneg hnn
      have hdm : 20 * k + t % 20 = t := Nat.div_add_mod t 20
      have hmlt : t % 20 < 20 := Nat.mod_lt _ (by omega)
      have hkc : k < chunkCount start_round end_round := by
        have hle : t ≤ (end_round - start_round).toNat :=
          Int.toNat_le_toNat (by omega)
        have hdiv : t / 20 ≤ (end_round - start_round).toNat / 20 :=
          Nat.div_le_div_right hle
        unfold chunkCount
        omega
      refine ⟨(start_round + 20 * (k : Int),
        min (start_round + 20 * (k : Int) + 19) end_round), ?_, ?_, ?_⟩
      · rw [hb]
        exact List.mem_map.mpr ⟨k, List.mem_range.mpr hkc, rfl⟩
      · omega
      · rw [le_min_iff]
        constructor
        · omega
        · exact hr
  · intro i j hi hj hij
    rw [hget i hi, hget j hj]
    have hmin : min (start_round + 20 * (i : Int) + 19) end_round ≤
        start_round + 20 * (i : Int) + 19 := min_le_left _ _
    have hcast : (i : Int) < (j : Int) := by exact_mod_cast hij
    omega

/-- Witness for the C9 theorem at the concrete range 1..45: three chunks
1-20, 21-40, 41-45 cover it. -/
theorem build_detail_urls_partition_witness :
    (1 : Int) ≤ 1 ∧ (1 : Int) ≤ 45 ∧
    ((∀ i (hi : i < (build_detail_urls 1 45).length),
      (build_detail_urls 1 45).get ⟨i, hi⟩ =
        (1 + 20 * (i : Int), min (1 + 20 * (i : Int) + 19) 45)) ∧
    (∀ n : Int, (∃ c ∈ build_detail_urls 1 45, c.1 ≤ n ∧ n ≤ c.2) ↔
        ((1 : Int) ≤ n ∧ n ≤ 45)) ∧
    (∀ i j (hi : i < (build_detail_urls 1 45).length)
      (hj : j < (build_detail_urls 1 45).length), i < j →
      ((build_detail_urls 1 45).get ⟨i, hi⟩).2 <
        ((build_detail_urls 1 45).get ⟨j, hj⟩).1)) :=
  ⟨by decide, by decide, build_detail_urls_partition 1 45 (by decide) (by decide)⟩

/-- Claim C10: `generate_latest_json` and `generate_version_json` are
defined only for a non-empty dataset — on an empty frame the unguarded
`iloc[0]` fails (modelled by `none`) — and on every non-empty dataset both
select a record carrying the maximal `draw_no`; the version descriptor
additionally reports the total record count. -/
theorem convert_latest_version_nonempty :
    (generate_latest_json [] = none ∧ generate_version_json [] = none) ∧
    (∀ df : List JsonRow, df ≠ [] →
      (∃ out, generate_latest_json df = some out ∧
        (∃ r ∈ df, r.draw_no = out.draw_no) ∧
        (∀ r ∈ df, r.draw_no ≤ out.draw_no)) ∧
      (∃ out, generate_version_json df = some out ∧
        (∃ r ∈ df, r.draw_no = out.latest_draw_no) ∧
        (∀ r ∈ df, r.draw_no ≤ out.latest_draw_no) ∧
        out.total_records = df.length)) := by
  constructor
  · exact ⟨rfl, rfl⟩
  · intro df hdf
    have hperm : (sortByDrawNoDesc df).Perm df :=
      List.perm_insertionSort drawDescLE df
    rcases hsort : sortByDrawNoDesc df with _ | ⟨latest, rest⟩
    · exfalso
      apply hdf
      rw [hsort] at hperm
      exact hperm.nil_eq.symm
    · have hsorted : List.Sorted drawDescLE (latest :: rest) := by
        rw [← hsort]
        exact List.sorted_insertionSort drawDescLE df
      have hmax : ∀ r ∈ df, r.draw_no ≤ latest.draw_no := by
        intro r hr
        have hr2 : r ∈ latest :: rest := by
          rw [← hsort]
          exact hperm.mem_iff.mpr hr
        rcases List.mem_cons.mp hr2 with h | h
        · rw [h]
        · exact List.rel_of_sorted_cons hsorted r h
      have hlmem : latest ∈ df := by
        apply hperm.mem_iff.mp
        rw [hsort]
        exact List.mem_cons_self latest rest
      constructor
      · have heq : generate_latest_json df = some
            { draw_no := latest.draw_no
              date := latest.date
              digits := [latest.digit1, latest.digit2, latest.digit3,
                latest.digit4]
              winning_number := latest.winning_number
              prize_straight := latest.straight_payout
              prize_box := latest.box_payout
              prize_set_straight := latest.set_straight_payout
              prize_set_box := latest.set_box_payout } := by
          unfold generate_latest_json
          rw [hsort]
        exact ⟨_, heq, ⟨latest, hlmem, rfl⟩, hmax⟩
      · have heq : generate_version_json df = some
            { version := latest.date ++ "-" ++ zeroPad 3 latest.draw_no
              schema := "1.0.0"
              latest_draw_no := latest.draw_no
              latest_date := latest.date
              total_records := df.length } := by
          unfold generate_version_json
          rw [hsort]
        exact ⟨_, heq, ⟨latest, hlmem, rfl⟩, hmax, rfl⟩

/-- Witness for the C10 theorem on a one-record dataset. -/
theorem convert_latest_version_nonempty_witness :
    ([sampleJsonRow] : List JsonRow) ≠ [] ∧
    ((∃ out, generate_latest_json [sampleJsonRow] = some out ∧
        (∃ r ∈ [sampleJsonRow], r.draw_no = out.draw_no) ∧
        (∀ r ∈ [sampleJsonRow], r.draw_no ≤ out.draw_no)) ∧
      (∃ out, generate_version_json [sampleJsonRow] = some out ∧
        (∃ r ∈ [sampleJsonRow], r.draw_no = out.latest_draw_no) ∧
        (∀ r ∈ [sampleJsonRow], r.draw_no ≤ out.latest_draw_no) ∧
        out.total_records = [sampleJsonRow].length)) :=
  ⟨by decide, convert_latest_version_nonempty.2 [sampleJsonRow] (by decide)⟩

end Numbers4
